import Mathlib

/-!
Verification of the FASTA sequence analyzer (`src/fasta_analyzer.py`).

Sequences are modelled as `List Char`; Python's `str.upper()` is modelled by
`Char.toUpper`, which has the same definition on ASCII; Python's `str.strip()`
is modelled by dropping Python's (ASCII) whitespace characters from both ends;
Python floats are modelled as exact rationals (the source performs a single
division and a multiplication, and the spec describes the results as exact
percentages with no internal rounding); the file handed to `read_fasta` is
modelled by its list of lines.  Python's `set` values are modelled by lists
up to membership: `x in set(s)` is list membership in `s`, `set(s) <= S` is
`∀ c ∈ s, c ∈ S`, and `sorted(set(s) - S)` is the deduplicated difference
sorted by codepoint.  Errors are modelled by an error-kind enumeration in an
`Except`, following the spec's error taxonomy (the source raises `ValueError`
with a descriptive message for both kinds).
-/

deriving instance DecidableEq for Except

/-- The ASCII whitespace characters stripped by Python's `str.strip()`. -/
def pyIsSpace (c : Char) : Bool :=
  c = ' ' || c = '\t' || c = '\n' || c = '\x0B' || c = '\x0C' || c = '\r'

/-- Python's `str.strip()`: remove leading and trailing whitespace. -/
def pyStrip (s : List Char) : List Char :=
  (s.dropWhile pyIsSpace).rdropWhile pyIsSpace

/-- Error kinds of the analyzer, following the spec's error taxonomy
(the source raises `ValueError` with a descriptive message in both cases). -/
inductive FastaError where
  | emptySequence : FastaError
  | invalidChars : List Char → FastaError
deriving DecidableEq, Repr

/-- The classification result of `identify_sequence_type`. -/
inductive SeqType where
  | DNA : SeqType
  | RNA : SeqType
  | Protein : SeqType
deriving DecidableEq, Repr

/-- The allowed alphabet `valid_bases = set("ATGCUN")` of `validate_sequence`. -/
def valid_bases : List Char := ['A', 'T', 'G', 'C', 'U', 'N']

/-- The set `invalid_chars = set(sequence.upper()) - valid_bases` of
`validate_sequence`: the distinct characters of the uppercased sequence that
are not allowed bases. -/
def invalid_chars_of (s : List Char) : List Char :=
  ((s.map Char.toUpper).dedup).filter (fun c => c ∉ valid_bases)

/-- Source `validate_sequence`: raise on empty or all-whitespace
input; compute `set(sequence.upper()) - valid_bases` and raise with its
elements sorted by codepoint if it is non-empty; otherwise succeed. -/
def validate_sequence (s : List Char) : Except FastaError Unit :=
  if s = [] ∨ pyStrip s = [] then
    .error .emptySequence
  else if invalid_chars_of s = [] then
    .ok ()
  else
    .error (.invalidChars ((invalid_chars_of s).insertionSort (· ≤ ·)))

/-- The letter set `dna_letters = set("ATGC")` of `identify_sequence_type`. -/
def dna_letters : List Char := ['A', 'T', 'G', 'C']

/-- The letter set `rna_letters = set("AUGC")` of `identify_sequence_type`. -/
def rna_letters : List Char := ['A', 'U', 'G', 'C']

/-- Source `identify_sequence_type`: U-without-T is RNA,
T-without-U is DNA, otherwise fall back to the two subset tests
(`seq_set.issubset` is modelled by bounded quantification over the list). -/
def identify_sequence_type (s : List Char) : SeqType :=
  if 'U' ∈ s ∧ 'T' ∉ s then .RNA
  else if 'T' ∈ s ∧ 'U' ∉ s then .DNA
  else if ∀ c ∈ s, c ∈ dna_letters then .DNA
  else if ∀ c ∈ s, c ∈ rna_letters then .RNA
  else .Protein

/-- Source `gc_content`: `((count G + count C) / len) * 100`,
guarded against the empty sequence. -/
def gc_content (s : List Char) : Except FastaError ℚ :=
  if s = [] then .error .emptySequence
  else .ok (((s.count 'G' : ℚ) + (s.count 'C' : ℚ)) / (s.length : ℚ) * 100)

/-- Source `at_content`: `((count A + count T) / len) * 100`,
guarded against the empty sequence. -/
def at_content (s : List Char) : Except FastaError ℚ :=
  if s = [] then .error .emptySequence
  else .ok (((s.count 'A' : ℚ) + (s.count 'T' : ℚ)) / (s.length : ℚ) * 100)

/-- Python's `line.startswith(">")`. -/
def is_header : List Char → Bool
  | '>' :: _ => true
  | _ => false

/-- The line loop of `read_fasta`: strip each line, skip blank lines, let a
line starting with the marker replace the header, and append every other
line uppercased to the sequence. -/
def read_fasta_loop : List (List Char) → List Char → List Char → List Char × List Char
  | [], header, seq => (header, seq)
  | l :: rest, header, seq =>
    let line := pyStrip l
    if line = [] then read_fasta_loop rest header seq
    else if is_header line then read_fasta_loop rest line seq
    else read_fasta_loop rest header (seq ++ line.map Char.toUpper)

/-- Source `read_fasta`, on the file's list of lines: run the line
loop from empty header and sequence, fail if no sequence content was found,
otherwise validate the sequence and return the pair. -/
def read_fasta (lines : List (List Char)) : Except FastaError (List Char × List Char) :=
  let hs := read_fasta_loop lines [] []
  if hs.2 = [] then .error .emptySequence
  else
    match validate_sequence hs.2 with
    | .ok () => .ok hs
    | .error e => .error e

/-- Spec-side (from the spec's words): the stripped header lines of the file,
in order. -/
def header_lines (lines : List (List Char)) : List (List Char) :=
  (lines.map pyStrip).filter is_header

/-- Spec-side (from the spec's words): the header of the assembled record,
"the last such line wins", "empty string if no header line occurs". -/
def header_of (lines : List (List Char)) : List Char :=
  (header_lines lines).getLast?.getD []

/-- Spec-side (from the spec's words): the stripped non-blank non-header
lines of the file, in order. -/
def body_lines (lines : List (List Char)) : List (List Char) :=
  (lines.map pyStrip).filter (fun t => !t.isEmpty && !is_header t)

/-- Spec-side (from the spec's words): the assembled sequence, "all other
non-blank lines are uppercased and appended with no separator". -/
def sequence_of (lines : List (List Char)) : List Char :=
  ((body_lines lines).map (List.map Char.toUpper)).flatten

/-- Spec-side (from the spec's words): a character of the raw file text
allowed by the testable property of §8 — an allowed base, whitespace, or
the record-start marker. -/
def raw_allowed (c : Char) : Bool :=
  valid_bases.contains c || pyIsSpace c || c == '>'

lemma pyStrip_eq_nil_iff {s : List Char} : pyStrip s = [] ↔ ∀ c ∈ s, pyIsSpace c := by
  unfold pyStrip
  rw [List.rdropWhile_eq_nil_iff]
  constructor
  · intro h c hc
    have hsplit : c ∈ s.takeWhile pyIsSpace ++ s.dropWhile pyIsSpace := by
      rw [List.takeWhile_append_dropWhile]; exact hc
    rcases List.mem_append.mp hsplit with htk | hdr
    · exact List.mem_takeWhile_imp htk
    · exact h c hdr
  · intro h c hc
    exact h c ((List.dropWhile_sublist pyIsSpace).mem hc)

lemma mem_pyStrip {s : List Char} {c : Char} (hc : c ∈ pyStrip s) : c ∈ s := by
  unfold pyStrip List.rdropWhile at hc
  rw [List.mem_reverse] at hc
  have h2 := (List.dropWhile_sublist pyIsSpace).mem hc
  rw [List.mem_reverse] at h2
  exact (List.dropWhile_sublist pyIsSpace).mem h2

lemma char_toNat_ofNat {n : Nat} (h : n.isValidChar) : (Char.ofNat n).toNat = n := by
  rw [Char.ofNat, dif_pos h]
  rfl

lemma toUpper_unfold (c : Char) :
    c.toUpper = if 97 ≤ c.toNat ∧ c.toNat ≤ 122 then Char.ofNat (c.toNat - 32) else c := rfl

lemma toUpper_toUpper (c : Char) : c.toUpper.toUpper = c.toUpper := by
  by_cases h : 97 ≤ c.toNat ∧ c.toNat ≤ 122
  · have h1 : c.toUpper = Char.ofNat (c.toNat - 32) := by rw [toUpper_unfold, if_pos h]
    have hv : Nat.isValidChar (c.toNat - 32) := Or.inl (by omega)
    have h2 : (Char.ofNat (c.toNat - 32)).toNat = c.toNat - 32 := char_toNat_ofNat hv
    have hc : ¬(97 ≤ (Char.ofNat (c.toNat - 32)).toNat ∧
        (Char.ofNat (c.toNat - 32)).toNat ≤ 122) := by rw [h2]; omega
    rw [h1, toUpper_unfold, if_neg hc]
  · have h1 : c.toUpper = c := by rw [toUpper_unfold, if_neg h]
    rw [h1, h1]

lemma toUpper_fixed_of_valid {c : Char} (h : c ∈ valid_bases) : c.toUpper = c := by
  fin_cases h <;> rfl

lemma header_lines_cons (l : List Char) (rest : List (List Char)) :
    header_lines (l :: rest) =
      if is_header (pyStrip l) then pyStrip l :: header_lines rest else header_lines rest := by
  simp only [header_lines, List.map_cons, List.filter_cons]

lemma body_lines_cons (l : List Char) (rest : List (List Char)) :
    body_lines (l :: rest) =
      if pyStrip l ≠ [] ∧ ¬is_header (pyStrip l) then pyStrip l :: body_lines rest
      else body_lines rest := by
  simp only [body_lines, List.map_cons, List.filter_cons]
  by_cases h1 : pyStrip l = [] <;> by_cases h2 : is_header (pyStrip l) <;>
    simp [h1, h2, List.isEmpty_iff]

lemma read_fasta_loop_eq (lines : List (List Char)) : ∀ header seq,
    read_fasta_loop lines header seq =
      ((header_lines lines).getLast?.getD header, seq ++ sequence_of lines) := by
  induction lines with
  | nil =>
    intro h s
    simp [read_fasta_loop, header_lines, sequence_of, body_lines]
  | cons l rest ih =>
    intro h s
    simp only [read_fasta_loop]
    by_cases hb : pyStrip l = []
    · have hh : ¬is_header (pyStrip l) := by rw [hb]; decide
      rw [if_pos hb, ih, header_lines_cons, if_neg hh]
      have : sequence_of (l :: rest) = sequence_of rest := by
        simp [sequence_of, body_lines_cons, hb]
      rw [this]
    · rw [if_neg hb]
      by_cases hh : is_header (pyStrip l)
      · rw [if_pos hh, ih, header_lines_cons, if_pos hh]
        have hseq : sequence_of (l :: rest) = sequence_of rest := by
          simp [sequence_of, body_lines_cons, hh]
        rw [hseq, List.getLast?_cons]
        cases (header_lines rest).getLast? <;> simp
      · rw [if_neg hh, ih, header_lines_cons, if_neg hh]
        have hseq : sequence_of (l :: rest) =
            (pyStrip l).map Char.toUpper ++ sequence_of rest := by
          simp [sequence_of, body_lines_cons, hb, hh]
        rw [hseq, List.append_assoc]

lemma read_fasta_eq_parts (lines : List (List Char)) :
    read_fasta lines =
      if sequence_of lines = [] then .error .emptySequence
      else
        match validate_sequence (sequence_of lines) with
        | .ok () => .ok (header_of lines, sequence_of lines)
        | .error e => .error e := by
  unfold read_fasta
  rw [read_fasta_loop_eq]
  simp [header_of]

lemma empty_or_strip_nil_iff {s : List Char} :
    (s = [] ∨ pyStrip s = []) ↔ ∀ c ∈ s, pyIsSpace c := by
  constructor
  · rintro (rfl | h)
    · simp
    · exact pyStrip_eq_nil_iff.mp h
  · intro h
    exact Or.inr (pyStrip_eq_nil_iff.mpr h)

lemma mem_invalid_chars_of {s : List Char} {c : Char} :
    c ∈ invalid_chars_of s ↔ (∃ d ∈ s, d.toUpper = c) ∧ c ∉ valid_bases := by
  simp [invalid_chars_of, List.mem_filter, List.mem_dedup, List.mem_map]

lemma invalid_chars_of_eq_nil_iff {s : List Char} :
    invalid_chars_of s = [] ↔ ∀ c ∈ s, c.toUpper ∈ valid_bases := by
  rw [List.eq_nil_iff_forall_not_mem]
  constructor
  · intro h c hc
    by_contra hnot
    exact h c.toUpper (mem_invalid_chars_of.mpr ⟨⟨c, hc, rfl⟩, hnot⟩)
  · intro h c hc
    rcases mem_invalid_chars_of.mp hc with ⟨⟨d, hd, rfl⟩, hnot⟩
    exact hnot (h d hd)

lemma nodup_invalid_chars_of (s : List Char) : (invalid_chars_of s).Nodup :=
  (List.nodup_dedup _).filter _

lemma validate_eq_empty_iff {s : List Char} :
    validate_sequence s = .error .emptySequence ↔ ∀ c ∈ s, pyIsSpace c := by
  unfold validate_sequence
  by_cases hws : s = [] ∨ pyStrip s = []
  · exact iff_of_true (by rw [if_pos hws]) (empty_or_strip_nil_iff.mp hws)
  · have hws2 : ¬∀ c ∈ s, pyIsSpace c := fun h => hws (empty_or_strip_nil_iff.mpr h)
    rw [if_neg hws]
    by_cases hinv : invalid_chars_of s = []
    · rw [if_pos hinv]
      exact iff_of_false (by simp) hws2
    · rw [if_neg hinv]
      exact iff_of_false (by simp) hws2

lemma validate_eq_ok_iff {s : List Char} :
    validate_sequence s = .ok () ↔
      ¬(∀ c ∈ s, pyIsSpace c) ∧ ∀ c ∈ s, c.toUpper ∈ valid_bases := by
  unfold validate_sequence
  by_cases hws : s = [] ∨ pyStrip s = []
  · exact iff_of_false (by rw [if_pos hws]; simp)
      (fun h => h.1 (empty_or_strip_nil_iff.mp hws))
  · have hws2 : ¬∀ c ∈ s, pyIsSpace c := fun h => hws (empty_or_strip_nil_iff.mpr h)
    rw [if_neg hws]
    by_cases hinv : invalid_chars_of s = []
    · rw [if_pos hinv]
      exact iff_of_true rfl ⟨hws2, invalid_chars_of_eq_nil_iff.mp hinv⟩
    · rw [if_neg hinv]
      exact iff_of_false (by simp)
        (fun h => hinv (invalid_chars_of_eq_nil_iff.mpr h.2))

lemma validate_eq_invalid_iff {s : List Char} {l : List Char} :
    validate_sequence s = .error (.invalidChars l) ↔
      ¬(∀ c ∈ s, pyIsSpace c) ∧ invalid_chars_of s ≠ [] ∧
        l = (invalid_chars_of s).insertionSort (· ≤ ·) := by
  unfold validate_sequence
  by_cases hws : s = [] ∨ pyStrip s = []
  · exact iff_of_false (by rw [if_pos hws]; simp)
      (fun h => h.1 (empty_or_strip_nil_iff.mp hws))
  · have hws2 : ¬∀ c ∈ s, pyIsSpace c := fun h => hws (empty_or_strip_nil_iff.mpr h)
    rw [if_neg hws]
    by_cases hinv : invalid_chars_of s = []
    · rw [if_pos hinv]
      exact iff_of_false (by simp) (fun h => h.2.1 hinv)
    · rw [if_neg hinv]
      simp only [Except.error.injEq, FastaError.invalidChars.injEq]
      constructor
      · intro h
        exact ⟨hws2, hinv, h.symm⟩
      · intro h
        exact h.2.2.symm

lemma sorted_lt_insertionSort_invalid (s : List Char) :
    ((invalid_chars_of s).insertionSort (· ≤ ·)).Sorted (· < ·) := by
  have h1 : ((invalid_chars_of s).insertionSort (· ≤ ·)).Sorted (· ≤ ·) :=
    List.sorted_insertionSort _ _
  have h2 : ((invalid_chars_of s).insertionSort (· ≤ ·)).Nodup :=
    (List.perm_insertionSort _ _).nodup_iff.mpr (nodup_invalid_chars_of s)
  exact h1.lt_of_le h2

lemma mem_insertionSort_invalid {s : List Char} {c : Char} :
    c ∈ (invalid_chars_of s).insertionSort (· ≤ ·) ↔ c ∈ invalid_chars_of s :=
  (List.perm_insertionSort _ _).mem_iff

lemma empty_or_all_space_iff {s : List Char} :
    (s = [] ∨ ∀ c ∈ s, pyIsSpace c) ↔ ∀ c ∈ s, pyIsSpace c := by
  constructor
  · rintro (rfl | h)
    · simp
    · exact h
  · exact Or.inr

/-- Claim C1: for every sequence over the allowed alphabet,
`identify_sequence_type` returns exactly one of DNA, RNA, Protein, and
follows the decision order exactly: if the symbol set contains U and not T
it returns RNA; else if it contains T and not U it returns DNA; else if the
symbol set is included in {A,T,G,C} it returns DNA; else if it is included
in {A,U,G,C} it returns RNA; else it returns Protein. -/
theorem identify_sequence_type_decision_order (s : List Char)
    (halpha : ∀ c ∈ s, c ∈ valid_bases) :
    (identify_sequence_type s = .DNA ∨ identify_sequence_type s = .RNA ∨
        identify_sequence_type s = .Protein) ∧
    ('U' ∈ s ∧ 'T' ∉ s → identify_sequence_type s = .RNA) ∧
    ('T' ∈ s ∧ 'U' ∉ s → identify_sequence_type s = .DNA) ∧
    (¬('U' ∈ s ∧ 'T' ∉ s) → ¬('T' ∈ s ∧ 'U' ∉ s) → (∀ c ∈ s, c ∈ dna_letters) →
        identify_sequence_type s = .DNA) ∧
    (¬('U' ∈ s ∧ 'T' ∉ s) → ¬('T' ∈ s ∧ 'U' ∉ s) → ¬(∀ c ∈ s, c ∈ dna_letters) →
        (∀ c ∈ s, c ∈ rna_letters) → identify_sequence_type s = .RNA) ∧
    (¬('U' ∈ s ∧ 'T' ∉ s) → ¬('T' ∈ s ∧ 'U' ∉ s) → ¬(∀ c ∈ s, c ∈ dna_letters) →
        ¬(∀ c ∈ s, c ∈ rna_letters) → identify_sequence_type s = .Protein) := by
  constructor
  · unfold identify_sequence_type
    split_ifs <;> simp
  · refine ⟨?_, ?_, ?_, ?_, ?_⟩ <;> unfold identify_sequence_type <;>
      split_ifs <;> tauto

/-- Witness for C1: on the DNA sequence ATG the decision order yields DNA
through the second rule. -/
theorem identify_sequence_type_decision_order_witness :
    identify_sequence_type ['A', 'T', 'G'] = .DNA :=
  (identify_sequence_type_decision_order ['A', 'T', 'G'] (by decide)).2.2.1 (by decide)

/-- Claim C8: a sequence whose symbol set contains both T and U falls
through the first two rules and both subset tests, so it classifies as
Protein. -/
theorem identify_sequence_type_T_and_U_protein (s : List Char)
    (hT : 'T' ∈ s) (hU : 'U' ∈ s) :
    identify_sequence_type s = .Protein := by
  unfold identify_sequence_type
  split_ifs with h1 h2 h3 h4
  · exact absurd hT h1.2
  · exact absurd hU h2.2
  · exact absurd (h3 'U' hU) (by decide)
  · exact absurd (h4 'T' hT) (by decide)
  · rfl

/-- Witness for C8: the sequence TU classifies as Protein. -/
theorem identify_sequence_type_T_and_U_protein_witness :
    identify_sequence_type ['T', 'U'] = .Protein :=
  identify_sequence_type_T_and_U_protein ['T', 'U'] (by decide) (by decide)

/-- Claim C9: `identify_sequence_type` is total over all strings (in this
embedding it is a total function into the three-valued enumeration, so it
never raises), and the empty string — whose symbol set is empty and hence
included in {A,T,G,C} — returns DNA. -/
theorem identify_sequence_type_total_and_empty :
    identify_sequence_type [] = .DNA ∧
    ∀ s : List Char, identify_sequence_type s = .DNA ∨
      identify_sequence_type s = .RNA ∨ identify_sequence_type s = .Protein := by
  constructor
  · decide
  · intro s
    cases h : identify_sequence_type s
    · exact Or.inl rfl
    · exact Or.inr (Or.inl rfl)
    · exact Or.inr (Or.inr rfl)

/-- Claim C3: `validate_sequence` fails with the empty-sequence error exactly
when the sequence is empty or all-whitespace; otherwise it fails with the
invalid-character error exactly when some character's uppercase form is
outside {A,T,G,C,U,N}, and the carried list is strictly sorted and holds
exactly the distinct offending uppercase characters; otherwise it succeeds. -/
theorem validate_sequence_characterization (s : List Char) :
    (validate_sequence s = .error .emptySequence ↔
      s = [] ∨ ∀ c ∈ s, pyIsSpace c) ∧
    ((∃ l, validate_sequence s = .error (.invalidChars l)) ↔
      ¬(s = [] ∨ ∀ c ∈ s, pyIsSpace c) ∧ ∃ c ∈ s, c.toUpper ∉ valid_bases) ∧
    (∀ l, validate_sequence s = .error (.invalidChars l) →
      l.Sorted (· < ·) ∧
        ∀ c, c ∈ l ↔ (∃ d ∈ s, d.toUpper = c) ∧ c ∉ valid_bases) ∧
    (validate_sequence s = .ok () ↔
      ¬(s = [] ∨ ∀ c ∈ s, pyIsSpace c) ∧ ∀ c ∈ s, c.toUpper ∈ valid_bases) := by
  refine ⟨?_, ?_, ?_, ?_⟩
  · rw [validate_eq_empty_iff, empty_or_all_space_iff]
  · rw [empty_or_all_space_iff]
    constructor
    · rintro ⟨l, hl⟩
      rcases validate_eq_invalid_iff.mp hl with ⟨hws, hinv, -⟩
      refine ⟨hws, ?_⟩
      rcases List.exists_mem_of_ne_nil _ hinv with ⟨x, hx⟩
      rcases mem_invalid_chars_of.mp hx with ⟨⟨d, hd, rfl⟩, hnot⟩
      exact ⟨d, hd, hnot⟩
    · rintro ⟨hws, c, hc, hnot⟩
      refine ⟨(invalid_chars_of s).insertionSort (· ≤ ·),
        validate_eq_invalid_iff.mpr ⟨hws, ?_, rfl⟩⟩
      intro hnil
      exact (List.eq_nil_iff_forall_not_mem.mp hnil) c.toUpper
        (mem_invalid_chars_of.mpr ⟨⟨c, hc, rfl⟩, hnot⟩)
  · intro l hl
    rcases validate_eq_invalid_iff.mp hl with ⟨-, -, rfl⟩
    refine ⟨sorted_lt_insertionSort_invalid s, ?_⟩
    intro c
    rw [mem_insertionSort_invalid, mem_invalid_chars_of]
  · rw [validate_eq_ok_iff, empty_or_all_space_iff]

/-- Witness for C3: the lowercase sequence gc validates successfully, via
the success case of the characterization. -/
theorem validate_sequence_characterization_witness :
    validate_sequence ['g', 'c'] = .ok () :=
  (validate_sequence_characterization ['g', 'c']).2.2.2.mpr (by decide)

/-- Claim C4: on the non-empty sequence, `gc_content` returns
(count G + count C) / length × 100 and `at_content` the analogue with A and
T, and each fails with the empty-sequence error exactly when the sequence is
empty. -/
theorem gc_at_content_contract (s : List Char) :
    (gc_content s = .error .emptySequence ↔ s = []) ∧
    (at_content s = .error .emptySequence ↔ s = []) ∧
    (s ≠ [] → gc_content s =
      .ok (((s.count 'G' : ℚ) + (s.count 'C' : ℚ)) / (s.length : ℚ) * 100)) ∧
    (s ≠ [] → at_content s =
      .ok (((s.count 'A' : ℚ) + (s.count 'T' : ℚ)) / (s.length : ℚ) * 100)) := by
  unfold gc_content at_content
  by_cases h : s = [] <;> simp [h]

/-- Witness for C4: the one-letter sequence G realizes the formula. -/
theorem gc_at_content_contract_witness :
    gc_content ['G'] =
      .ok (((List.count 'G' ['G'] : ℚ) + (List.count 'C' ['G'] : ℚ)) /
        ((List.length ['G']) : ℚ) * 100) :=
  (gc_at_content_contract ['G']).2.2.1 (by decide)

lemma not_U_mem_of_dna {s : List Char} (h : identify_sequence_type s = .DNA) :
    'U' ∉ s := by
  intro hU
  unfold identify_sequence_type at h
  by_cases hT : 'T' ∈ s
  · rw [if_neg (fun hc => hc.2 hT), if_neg (fun hc => hc.2 hU),
      if_neg (fun hall => absurd (hall 'U' hU) (by decide : 'U' ∉ dna_letters)),
      if_neg (fun hall => absurd (hall 'T' hT) (by decide : 'T' ∉ rna_letters))] at h
    exact SeqType.noConfusion h
  · rw [if_pos ⟨hU, hT⟩] at h
    exact SeqType.noConfusion h

lemma count_five_partition {s : List Char}
    (h : ∀ c ∈ s, c ∈ (['A', 'T', 'G', 'C', 'N'] : List Char)) :
    s.count 'A' + s.count 'T' + s.count 'G' + s.count 'C' + s.count 'N' =
      s.length := by
  induction s with
  | nil => simp
  | cons c cs ih =>
    have hc := h c (List.mem_cons_self c cs)
    have hrec := ih (fun d hd => h d (List.mem_cons_of_mem c hd))
    simp only [List.count_cons, List.length_cons]
    fin_cases hc <;> simp <;> omega

/-- Claim C5: for a non-empty sequence over the allowed alphabet that
classifies as DNA, the GC and AT percentages sum to at most 100; the sum
falls short of 100 by exactly 100 × (count of N) / length, so it is strictly
below 100 whenever N occurs. -/
theorem gc_at_sum_bounded_of_dna (s : List Char)
    (halpha : ∀ c ∈ s, c ∈ valid_bases)
    (hdna : identify_sequence_type s = .DNA) (hne : s ≠ []) :
    ∃ g a : ℚ, gc_content s = .ok g ∧ at_content s = .ok a ∧
      g + a = 100 - 100 * (s.count 'N' : ℚ) / (s.length : ℚ) ∧
      g + a ≤ 100 ∧ ('N' ∈ s → g + a < 100) := by
  have hU : 'U' ∉ s := not_U_mem_of_dna hdna
  have h5 : ∀ c ∈ s, c ∈ (['A', 'T', 'G', 'C', 'N'] : List Char) := by
    intro c hc
    have hcv := halpha c hc
    fin_cases hcv <;> simp_all
  have hcount := count_five_partition h5
  have hlen : 0 < (s.length : ℚ) := by
    have h0 : 0 < s.length := List.length_pos.mpr hne
    exact_mod_cast h0
  have hL : (s.length : ℚ) ≠ 0 := ne_of_gt hlen
  have hq : (s.count 'A' : ℚ) + (s.count 'T' : ℚ) + (s.count 'G' : ℚ) +
      (s.count 'C' : ℚ) + (s.count 'N' : ℚ) = (s.length : ℚ) := by
    exact_mod_cast hcount
  have hsum : ((s.count 'G' : ℚ) + (s.count 'C' : ℚ)) / (s.length : ℚ) * 100 +
      ((s.count 'A' : ℚ) + (s.count 'T' : ℚ)) / (s.length : ℚ) * 100 =
      100 - 100 * (s.count 'N' : ℚ) / (s.length : ℚ) := by
    field_simp
    linarith [hq]
  refine ⟨((s.count 'G' : ℚ) + (s.count 'C' : ℚ)) / (s.length : ℚ) * 100,
      ((s.count 'A' : ℚ) + (s.count 'T' : ℚ)) / (s.length : ℚ) * 100,
      ?_, ?_, hsum, ?_, ?_⟩
  · unfold gc_content
    rw [if_neg hne]
  · unfold at_content
    rw [if_neg hne]
  · rw [hsum]
    have hnn : 0 ≤ 100 * (s.count 'N' : ℚ) / (s.length : ℚ) := by positivity
    linarith
  · intro hN
    rw [hsum]
    have h1 : 0 < s.count 'N' := List.count_pos_iff.mpr hN
    have h2 : (0 : ℚ) < (s.count 'N' : ℚ) := by exact_mod_cast h1
    have h3 : 0 < 100 * (s.count 'N' : ℚ) / (s.length : ℚ) :=
      div_pos (by linarith) hlen
    linarith

/-- Witness for C5: the DNA sequence ATGCN has GC + AT = 80 < 100. -/
theorem gc_at_sum_bounded_of_dna_witness :
    ∃ g a : ℚ, gc_content ['A', 'T', 'G', 'C', 'N'] = .ok g ∧
      at_content ['A', 'T', 'G', 'C', 'N'] = .ok a ∧
      g + a = 100 - 100 * ((List.count 'N' ['A', 'T', 'G', 'C', 'N'] : ℚ)) /
        ((List.length ['A', 'T', 'G', 'C', 'N']) : ℚ) ∧
      g + a ≤ 100 ∧ ('N' ∈ ['A', 'T', 'G', 'C', 'N'] → g + a < 100) :=
  gc_at_sum_bounded_of_dna ['A', 'T', 'G', 'C', 'N'] (by decide) (by decide)
    (by decide)

lemma read_fasta_ok_iff {lines : List (List Char)} {p : List Char × List Char} :
    read_fasta lines = .ok p ↔
      sequence_of lines ≠ [] ∧ validate_sequence (sequence_of lines) = .ok () ∧
        p = (header_of lines, sequence_of lines) := by
  rw [read_fasta_eq_parts]
  by_cases h : sequence_of lines = []
  · simp [h]
  · rw [if_neg h]
    cases hv : validate_sequence (sequence_of lines) with
    | ok u =>
      cases u
      simp [h, hv, eq_comm]
    | error e =>
      simp [h, hv]

lemma mem_body_lines {lines : List (List Char)} {t : List Char}
    (ht : t ∈ body_lines lines) :
    (∃ l ∈ lines, t = pyStrip l) ∧ t ≠ [] ∧ ¬is_header t := by
  unfold body_lines at ht
  rw [List.mem_filter] at ht
  rcases ht with ⟨hmem, hpred⟩
  rw [List.mem_map] at hmem
  rcases hmem with ⟨l, hl, rfl⟩
  simp only [Bool.and_eq_true, Bool.not_eq_true', List.isEmpty_iff,
    Bool.not_eq_true] at hpred
  refine ⟨⟨l, hl, rfl⟩, ?_, ?_⟩
  · simp [List.isEmpty_iff] at hpred
    exact hpred.1
  · simp at hpred
    simp [hpred.2]

lemma mem_sequence_of {lines : List (List Char)} {c : Char}
    (hc : c ∈ sequence_of lines) :
    ∃ t ∈ body_lines lines, ∃ d ∈ t, c = d.toUpper := by
  unfold sequence_of at hc
  rw [List.mem_flatten] at hc
  rcases hc with ⟨frag, hfrag, hcf⟩
  rw [List.mem_map] at hfrag
  rcases hfrag with ⟨t, ht, rfl⟩
  rw [List.mem_map] at hcf
  rcases hcf with ⟨d, hd, rfl⟩
  exact ⟨t, ht, d, hd, rfl⟩

lemma sequence_of_ne_nil {lines : List (List Char)} {l : List Char}
    (hl : l ∈ lines) (hne : pyStrip l ≠ []) (hnh : ¬is_header (pyStrip l)) :
    sequence_of lines ≠ [] := by
  have ht : pyStrip l ∈ body_lines lines := by
    unfold body_lines
    rw [List.mem_filter]
    refine ⟨List.mem_map_of_mem pyStrip hl, ?_⟩
    simp [List.isEmpty_iff, hne, hnh]
  rcases List.exists_mem_of_ne_nil _ hne with ⟨d, hd⟩
  have hmem : d.toUpper ∈ sequence_of lines := by
    unfold sequence_of
    rw [List.mem_flatten]
    exact ⟨(pyStrip l).map Char.toUpper, List.mem_map_of_mem _ ht,
      List.mem_map_of_mem _ hd⟩
  intro hnil
  rw [hnil] at hmem
  exact List.not_mem_nil _ hmem

/-- Claim C2: reading skips blank lines, a line beginning with the marker
replaces the header (last wins, kept verbatim), and every other non-blank
line is uppercased and appended with no separator; `read_fasta` returns
exactly that header (empty if no header line occurs) and that concatenated
uppercase sequence — stated for every successful read, together with the
converse that a non-empty valid assembly does succeed. -/
theorem read_fasta_last_header_wins (lines : List (List Char)) :
    (∀ p, read_fasta lines = .ok p → p = (header_of lines, sequence_of lines)) ∧
    (sequence_of lines ≠ [] → validate_sequence (sequence_of lines) = .ok () →
      read_fasta lines = .ok (header_of lines, sequence_of lines)) := by
  constructor
  · intro p hp
    exact (read_fasta_ok_iff.mp hp).2.2
  · intro hne hok
    exact read_fasta_ok_iff.mpr ⟨hne, hok, rfl⟩

/-- Witness for C2: two header lines, a blank line, and two sequence lines;
the second header wins and the sequence is the uppercase concatenation. -/
theorem read_fasta_last_header_wins_witness :
    read_fasta [['>', 'a'], ['>', 'b'], [], ['a', 't'], ['g', 'c']] =
      .ok (header_of [['>', 'a'], ['>', 'b'], [], ['a', 't'], ['g', 'c']],
        sequence_of [['>', 'a'], ['>', 'b'], [], ['a', 't'], ['g', 'c']]) :=
  (read_fasta_last_header_wins [['>', 'a'], ['>', 'b'], [], ['a', 't'], ['g', 'c']]).2
    (by decide) (by decide)

/-- Claim C6: whenever `read_fasta` succeeds, every character of the returned
sequence lies in the validated alphabet {A,T,G,C,U,N}. -/
theorem read_fasta_alphabet_invariant (lines : List (List Char))
    (hd s : List Char) (hok : read_fasta lines = .ok (hd, s)) :
    ∀ c ∈ s, c ∈ valid_bases := by
  rcases read_fasta_ok_iff.mp hok with ⟨-, hval, hp⟩
  have hs : s = sequence_of lines := congrArg Prod.snd hp
  subst hs
  have hup := (validate_eq_ok_iff.mp hval).2
  intro c hc
  rcases mem_sequence_of hc with ⟨t, ht, d, hd2, rfl⟩
  have hin := hup d.toUpper hc
  rwa [toUpper_toUpper] at hin

/-- Witness for C6: reading the single line at yields the sequence AT, whose
first character A is an allowed base. -/
theorem read_fasta_alphabet_invariant_witness : 'A' ∈ valid_bases :=
  read_fasta_alphabet_invariant [['a', 't']] [] ['A', 'T'] (by decide) 'A'
    (by decide)

lemma valid_bases_not_space {c : Char} (h : c ∈ valid_bases) : ¬pyIsSpace c := by
  fin_cases h <;> decide

/-- Counterexample to claim C7 as stated: the file whose single line is
"A C" contains only characters from {A,T,G,C,U,N, whitespace, marker}, yet
`read_fasta` fails with an invalid-character error on the interior space. -/
theorem read_fasta_raw_alphabet_cex :
    ['A', ' ', 'C'].all raw_allowed = true ∧
    read_fasta [['A', ' ', 'C']] = .error (.invalidChars [' ']) := by
  decide

/-- Claim C7, amended: if the raw text uses only characters from
{A,T,G,C,U,N, whitespace, marker}, and furthermore whitespace occurs only at
the ends of each line, the marker occurs in a non-header line nowhere, and
some stripped line is non-blank and not a header, then `read_fasta` succeeds
and returns a sequence with no whitespace whose characters are uppercase
allowed bases. -/
theorem read_fasta_raw_alphabet_amended (lines : List (List Char))
    (hraw : ∀ l ∈ lines, ∀ c ∈ l, raw_allowed c)
    (hinner : ∀ l ∈ lines, ∀ c ∈ pyStrip l, ¬pyIsSpace c)
    (hmark : ∀ l ∈ lines, ¬is_header (pyStrip l) → '>' ∉ pyStrip l)
    (hbody : ∃ l ∈ lines, pyStrip l ≠ [] ∧ ¬is_header (pyStrip l)) :
    read_fasta lines = .ok (header_of lines, sequence_of lines) ∧
    sequence_of lines ≠ [] ∧
    ∀ c ∈ sequence_of lines, ¬pyIsSpace c ∧ c ∈ valid_bases ∧ c.toUpper = c := by
  have hbase : ∀ t ∈ body_lines lines, ∀ c ∈ t, c ∈ valid_bases := by
    intro t ht c hc
    rcases mem_body_lines ht with ⟨⟨l, hl, rfl⟩, -, hnh⟩
    have h1 : raw_allowed c = true := hraw l hl c (mem_pyStrip hc)
    simp only [raw_allowed, List.contains, Bool.or_eq_true, beq_iff_eq,
      List.elem_iff] at h1
    rcases h1 with (hv | hsp) | hgt
    · exact hv
    · exact absurd hsp (hinner l hl c hc)
    · subst hgt
      exact absurd hc (hmark l hl hnh)
  have hchars : ∀ c ∈ sequence_of lines,
      ¬pyIsSpace c ∧ c ∈ valid_bases ∧ c.toUpper = c := by
    intro c hc
    rcases mem_sequence_of hc with ⟨t, ht, d, hd, rfl⟩
    have hdv : d ∈ valid_bases := hbase t ht d hd
    have hfix : d.toUpper = d := toUpper_fixed_of_valid hdv
    rw [hfix]
    exact ⟨valid_bases_not_space hdv, hdv, hfix⟩
  rcases hbody with ⟨l, hl, hne, hnh⟩
  have hsne : sequence_of lines ≠ [] := sequence_of_ne_nil hl hne hnh
  have hval : validate_sequence (sequence_of lines) = .ok () := by
    rw [validate_eq_ok_iff]
    constructor
    · intro hall
      rcases List.exists_mem_of_ne_nil _ hsne with ⟨c, hc⟩
      exact (hchars c hc).1 (hall c hc)
    · intro c hc
      rw [(hchars c hc).2.2]
      exact (hchars c hc).2.1
  exact ⟨read_fasta_ok_iff.mpr ⟨hsne, hval, rfl⟩, hsne, hchars⟩

/-- Witness for C7 (amended): a header line followed by the sequence line
ATG satisfies the amended hypotheses and reads successfully. -/
theorem read_fasta_raw_alphabet_amended_witness :
    read_fasta [['>', 'A'], ['A', 'T', 'G']] =
      .ok (header_of [['>', 'A'], ['A', 'T', 'G']],
        sequence_of [['>', 'A'], ['A', 'T', 'G']]) ∧
    sequence_of [['>', 'A'], ['A', 'T', 'G']] ≠ [] ∧
    ∀ c ∈ sequence_of [['>', 'A'], ['A', 'T', 'G']],
      ¬pyIsSpace c ∧ c ∈ valid_bases ∧ c.toUpper = c :=
  read_fasta_raw_alphabet_amended [['>', 'A'], ['A', 'T', 'G']] (by decide)
    (by decide) (by decide) ⟨['A', 'T', 'G'], by decide, by decide, by decide⟩

/-- Claim C10: validation is case-insensitive while composition counting is
case-sensitive: the lowercase sequence gcgc validates successfully yet its
GC content is 0 because only uppercase G and C are counted; and the mismatch
is unreachable through `read_fasta`, whose returned sequences are fixed
points of uppercasing. -/
theorem validate_upper_count_case_mismatch :
    validate_sequence ['g', 'c', 'g', 'c'] = .ok () ∧
    gc_content ['g', 'c', 'g', 'c'] = .ok 0 ∧
    ∀ lines p, read_fasta lines = .ok p → ∀ c ∈ p.2, c.toUpper = c := by
  refine ⟨by decide, ?_, ?_⟩
  · have h1 : List.count 'G' ['g', 'c', 'g', 'c'] = 0 := by decide
    have h2 : List.count 'C' ['g', 'c', 'g', 'c'] = 0 := by decide
    unfold gc_content
    rw [if_neg (by decide : ¬(['g', 'c', 'g', 'c'] : List Char) = []), h1, h2]
    norm_num
  · intro lines p hok c hc
    rcases read_fasta_ok_iff.mp hok with ⟨-, -, hp⟩
    have hs : p.2 = sequence_of lines := congrArg Prod.snd hp
    rw [hs] at hc
    rcases mem_sequence_of hc with ⟨t, ht, d, hd, rfl⟩
    exact toUpper_toUpper d

/-- Witness for C10: the single successful read of the line at yields only
characters fixed by uppercasing, instantiated at its first character. -/
theorem validate_upper_count_case_mismatch_witness :
    Char.toUpper 'A' = 'A' :=
  validate_upper_count_case_mismatch.2.2 [['a', 't']] ([], ['A', 'T'])
    (by decide) 'A' (by decide)

